import Mathlib

/-!
Verification of the snarkVM coinbase-puzzle core (KZG-based proof of work).

The pairing substrate (groups G1, G2, GT over the scalar field F) is cyclic of
prime order, so every group element is uniquely `x • g` (resp. `x • h`) for a
scalar `x`; we embed group elements by those scalars (their discrete
logarithms).  Scalar multiplication becomes field multiplication, group
addition becomes field addition, the identity is `0`, and the pairing
`e(a • g, b • h)` is represented by the exponent `a * b` of `e(g, h)`.  This
representation is exact: two expressions denote the same group / target-group
element iff their scalar shadows are equal.

Polynomials are dense little-endian coefficient lists, as in the source's
`DensePolynomial` (index = power of X).

The cryptographic hash helpers (`hash_to_poly`'s per-coefficient hash, the
commitment hash, and the Fiat-Shamir expansion of a commitment list) live in
files whose bodies are not part of the source under audit; they are modelled
from the spec as abstract functions `Hc`, `hashCm`, `Hfs` passed explicitly.
-/

set_option linter.unusedSectionVars false
set_option linter.unusedVariables false

namespace Snarkvm

section Core

variable {F : Type} [Field F] [DecidableEq F]

/-- Little-endian byte encoding of a natural number, `len` bytes. -/
def toBytesLE (n len : Nat) : List Nat :=
  (List.range len).map (fun i => n / 256 ^ i % 256)

/-- `dst[start .. start+src.length] := src`, the shadow of Rust's
`copy_from_slice` on a byte buffer. -/
def copySlice (dst : List Nat) (start : Nat) (src : List Nat) : List Nat :=
  dst.take start ++ src ++ dst.drop (start + src.length)

/-- Horner evaluation of a dense coefficient list. -/
def evalPoly (p : List F) (x : F) : F :=
  p.foldr (fun c acc => c + x * acc) 0

/-- Scalar multiple of a dense polynomial (Rust `&poly * challenge`). -/
def polySmul (c : F) (p : List F) : List F :=
  p.map (fun a => c * a)

/-- Coefficient-wise sum of dense polynomials, padding with the shorter. -/
def polyAdd : List F → List F → List F
  | [], q => q
  | p, [] => p
  | a :: p, b :: q => (a + b) :: polyAdd p q

/-- Dense polynomial product (Rust `&p * &q` on `DensePolynomial`). -/
def polyMul : List F → List F → List F
  | [], _ => []
  | _ :: _, [] => []
  | a :: p, b :: q => polyAdd (polySmul a (b :: q)) (0 :: polyMul p (b :: q))

/-- Synthetic division: the quotient `(p(X) - p(z)) / (X - z)`.  Modelled from
the spec: KZG10 `open` "computes the quotient q(X) = (p(X) − p(z)) / (X − z)
via synthetic division". -/
def synthQuot : List F → F → List F
  | [], _ => []
  | _ :: p, z => evalPoly p z :: synthQuot p z

/-- Modelled from the spec: variable-base multi-scalar multiplication
`Σ s_i · B_i` (the dispatcher in `msm/variable_base/mod.rs` delegates to
batched/Pippenger kernels that are outside the audited source); in the
discrete-log shadow it is the dot product of bases and scalars. -/
def msm (bases scalars : List F) : F :=
  (List.zipWith (fun b s => b * s) bases scalars).sum

/-- KZG10 verifying key; `g`, `gamma_g` are G1 scalars, `h`, `beta_h` are G2
scalars (the prepared forms of `h` and `beta_h` are the same group elements
precomputed for pairing and carry no extra data in this model). -/
structure VerifyingKey (F : Type) where
  g : F
  gamma_g : F
  h : F
  beta_h : F
deriving DecidableEq

/-- Coinbase-puzzle proving key (`ProvingKey` in `data_structures`): the SRS
prefix, the Lagrange-basis map (a one-entry `BTreeMap`, modelled as an
association list), and the embedded verifying key. -/
structure ProvingKey (F : Type) where
  powers_of_beta_g : List F
  lagrange_bases_at_beta_g : List (Nat × List F)
  vk : VerifyingKey F
deriving DecidableEq

/-- The structured reference string: `{β^i · g}` plus `h` and `β·h`. -/
structure SRS (F : Type) where
  powersOfBetaG : List F
  h : F
  beta_h : F
deriving DecidableEq

/-- Modelled from the spec: a genuine SRS for secret scalar `β`, i.e.
`powers_of_beta_g = [g, β·g, …, β^maxDegree·g]` with `h` and `β·h` in G2
(`setup` draws `β` at random; here it is a parameter). -/
def mkSRS (β : F) (maxDegree : Nat) : SRS F :=
  ⟨(List.range (maxDegree + 1)).map (fun i => β ^ i), 1, β⟩

/-- KZG10 opening proof: witness element `w ∈ G1` plus optional hiding
randomness (`None` throughout the coinbase puzzle — hiding is disabled). -/
structure Proof (F : Type) where
  w : F
  random_v : Option F
deriving DecidableEq

def Proof.is_hiding (p : Proof F) : Bool := p.random_v.isSome

/-- Modelled from the spec: KZG10 `commit` with hiding disabled returns
`MSM(powers[0..=deg(p)], coeffs(p))`. -/
def kzg_commit (powers p : List F) : F :=
  msm (powers.take p.length) p

/-- Modelled from the spec: KZG10 `open` commits to the synthetic-division
quotient; the returned proof carries no hiding randomness. -/
def kzg_open (powers p : List F) (z : F) : Proof F :=
  ⟨kzg_commit powers (synthQuot p z), none⟩

/-- Modelled from the spec: KZG10 `check` verifies the pairing equation
`e(C − v·g, h) = e(π, β·h − z·h)`; in discrete logs both sides are exponents
of `e(g, h)`. -/
def kzg_check (vk : VerifyingKey F) (c z v : F) (prf : Proof F) : Bool :=
  decide ((c - v * vk.g) * vk.h = prf.w * (vk.beta_h - z * vk.h))

/-- Modelled from the spec: `hash_to_poly(input, degree)` produces
`degree + 1` coefficients, the i-th being the hash of `input ‖ LE64(i)`
reduced into `F`; `Hc` is that composite hash-and-reduce. -/
def hash_to_poly (Hc : List Nat → F) (input : List Nat) (degree : Nat) : List F :=
  (List.range (degree + 1)).map (fun i => Hc (input ++ toBytesLE i 8))

/-- Modelled from the spec: `hash_commitments` folds the full commitment list
into a running transcript and emits `|cs| + 1` field elements by counter-mode
expansion; `Hfs cs i` is the i-th emitted element.  The last element is the
shared evaluation point. -/
def hash_commitments (Hfs : List F → Nat → F) (cs : List F) : List F :=
  (List.range (cs.length + 1)).map (Hfs cs)

/-- Smallest power of two that is at least `n` (`usize::next_power_of_two`,
the size of `EvaluationDomain::new(n)`), via a fuel-bounded doubling loop. -/
def np2Loop (n : Nat) : Nat → Nat → Nat
  | 0, acc => acc
  | fuel + 1, acc => if n ≤ acc then acc else np2Loop n fuel (2 * acc)

def nextPowerOfTwo (n : Nat) : Nat := np2Loop n n 1

/-- The epoch challenge: a dense polynomial derived from the epoch info. -/
structure EpochChallenge (F : Type) where
  epoch_polynomial : List F
deriving DecidableEq

/-- `DensePolynomial::degree` of the epoch polynomial. -/
def EpochChallenge.degree (ec : EpochChallenge F) : Nat :=
  ec.epoch_polynomial.length - 1

/-- An individual prover solution. -/
structure ProverPuzzleSolution (F : Type) where
  address : Nat
  nonce : Nat
  commitment : F
  proof : Proof F
deriving DecidableEq

/-- The accumulated solution: `(address, nonce, commitment)` triples plus one
combined opening proof. -/
structure CombinedPuzzleSolution (F : Type) where
  individual_puzzle_solutions : List (Nat × Nat × F)
  proof : Proof F
deriving DecidableEq

namespace CoinbasePuzzle

/-- `CoinbasePuzzle::trim`: take `degree + 1` powers from the SRS (`None`
models the panic when the SRS is too short), build the one-entry Lagrange
map keyed by the FFT-domain size, and fix `gamma_g` to the G1 identity.
`lag size i` is the (spec-modelled) Lagrange commitment `L_i(β)·g` for the
domain of that size. -/
def trim (lag : Nat → Nat → F) (srs : SRS F) (degree : Nat) :
    Option (ProvingKey F × VerifyingKey F) :=
  if degree + 1 ≤ srs.powersOfBetaG.length then
    let powers_of_beta_g := srs.powersOfBetaG.take (degree + 1)
    let size := nextPowerOfTwo (degree + 1)
    let lagrange_basis_at_beta_g := (List.range size).map (fun i => lag size i)
    let vk : VerifyingKey F :=
      { g := srs.powersOfBetaG.headD 0
        gamma_g := 0  -- identity: gamma_g is unused since we are not hiding
        h := srs.h
        beta_h := srs.beta_h }
    let pk : ProvingKey F :=
      { powers_of_beta_g := powers_of_beta_g
        lagrange_bases_at_beta_g := [(size, lagrange_basis_at_beta_g)]
        vk := vk }
    some (pk, vk)
  else
    none

/-- `CoinbasePuzzle::init_for_epoch`. -/
def init_for_epoch (Hc : List Nat → F) (epoch_info : Nat) (degree : Nat) :
    EpochChallenge F :=
  ⟨hash_to_poly Hc (toBytesLE epoch_info 8) degree⟩

/-- `CoinbasePuzzle::sample_solution_polynomial`: fill a 48-byte buffer with
`epoch_info` (8 LE bytes), the address (32 LE bytes) and the nonce (8 LE
bytes), then expand it to a polynomial of the epoch-challenge degree. -/
def sample_solution_polynomial (Hc : List Nat → F) (ec : EpochChallenge F)
    (epoch_info address nonce : Nat) : List F :=
  let poly_input :=
    copySlice (copySlice (copySlice (List.replicate 48 0) 0
      (toBytesLE epoch_info 8)) 8 (toBytesLE address 32)) 40 (toBytesLE nonce 8)
  hash_to_poly Hc poly_input ec.degree

/-- `CoinbasePuzzle::prove`. -/
def prove (Hc : List Nat → F) (hashCm : F → F) (pk : ProvingKey F)
    (epoch_info : Nat) (ec : EpochChallenge F) (address nonce : Nat) :
    ProverPuzzleSolution F :=
  let polynomial := sample_solution_polynomial Hc ec epoch_info address nonce
  let product := polyMul polynomial ec.epoch_polynomial
  let commitment := kzg_commit pk.powers_of_beta_g product
  let point := hashCm commitment
  let prf := kzg_open pk.powers_of_beta_g product point
  ⟨address, nonce, commitment, prf⟩

/-- The per-solution acceptance test inside `accumulate`'s `filter_map`:
recompute the solution polynomial, hash the commitment to a point, and run
the KZG check against `C(z) · p(z)`. -/
def accKeep (Hc : List Nat → F) (hashCm : F → F) (pk : ProvingKey F)
    (epoch_info : Nat) (ec : EpochChallenge F)
    (solution : ProverPuzzleSolution F) : Bool :=
  let polynomial := sample_solution_polynomial Hc ec epoch_info solution.address solution.nonce
  let point := hashCm solution.commitment
  let epoch_challenge_eval := evalPoly ec.epoch_polynomial point
  let polynomial_eval := evalPoly polynomial point
  kzg_check pk.vk solution.commitment point (epoch_challenge_eval * polynomial_eval)
    solution.proof

/-- The retained data for an accepted solution: its recomputed polynomial and
its `(address, nonce, commitment)` triple. -/
def accEntry (Hc : List Nat → F) (ec : EpochChallenge F) (epoch_info : Nat)
    (solution : ProverPuzzleSolution F) : List F × (Nat × Nat × F) :=
  (sample_solution_polynomial Hc ec epoch_info solution.address solution.nonce,
    (solution.address, solution.nonce, solution.commitment))

/-- The tail of `accumulate` after the per-solution filtering: derive
Fiat-Shamir challenges and the evaluation point from the retained
commitments, fold `Σ α_i · p_i`, multiply by the epoch polynomial, and open
at the shared point. -/
def acBuild (Hfs : List F → Nat → F) (pk : ProvingKey F) (ec : EpochChallenge F)
    (filtered : List (List F × (Nat × Nat × F))) : CombinedPuzzleSolution F :=
  let polynomials := filtered.map Prod.fst
  let kept_solutions := filtered.map Prod.snd
  let fs_challenges := hash_commitments Hfs (kept_solutions.map (fun t => t.2.2))
  let point := fs_challenges.getLastD 0
  let challenges := fs_challenges.dropLast
  let combined_polynomial :=
    (polynomials.zip challenges).foldl
      (fun acc pc => polyAdd acc (polySmul pc.2 pc.1)) []
  let combined_product := polyMul combined_polynomial ec.epoch_polynomial
  let prf := kzg_open pk.powers_of_beta_g combined_product point
  ⟨kept_solutions, prf⟩

/-- `CoinbasePuzzle::accumulate`: keep the solutions passing their KZG check
(`filter_map`, silently dropping the rest), then build the combined opening
over the retained list. -/
def accumulate (Hc : List Nat → F) (hashCm : F → F) (Hfs : List F → Nat → F)
    (pk : ProvingKey F) (epoch_info : Nat) (ec : EpochChallenge F)
    (prover_solutions : List (ProverPuzzleSolution F)) : CombinedPuzzleSolution F :=
  acBuild Hfs pk ec (prover_solutions.filterMap (fun solution =>
    if accKeep Hc hashCm pk epoch_info ec solution
    then some (accEntry Hc ec epoch_info solution)
    else none))

/-- `CoinbasePuzzle::verify` (the `algorithms`-crate verifier). -/
def verify (Hc : List Nat → F) (Hfs : List F → Nat → F) (vk : VerifyingKey F)
    (epoch_info : Nat) (ec : EpochChallenge F)
    (combined_solution : CombinedPuzzleSolution F) : Bool :=
  let polynomials := combined_solution.individual_puzzle_solutions.map
    (fun t => sample_solution_polynomial Hc ec epoch_info t.1 t.2.1)
  let fs_challenges := hash_commitments Hfs
    (combined_solution.individual_puzzle_solutions.map (fun t => t.2.2))
  let point := fs_challenges.getLastD 0
  let challenges := fs_challenges.dropLast
  let combined_eval :=
    ((polynomials.zip challenges).foldl
      (fun acc pc => acc + evalPoly pc.1 point * pc.2) 0)
      * evalPoly ec.epoch_polynomial point
  let commitments := combined_solution.individual_puzzle_solutions.map (fun t => t.2.2)
  let combined_commitment := msm commitments challenges
  kzg_check vk combined_commitment point combined_eval combined_solution.proof

/-- The combined verifier exactly as the spec words it: the last element of
`hash_commitments` is the evaluation point `z`, the remaining elements are
the challenges `α_i`, `combined_eval = C(z) · Σ α_i · p_i(z)` and
`combined_commitment = MSM({C_i}, {α_i})`, decided by one KZG pairing
check. -/
def verify_spec (Hc : List Nat → F) (Hfs : List F → Nat → F) (vk : VerifyingKey F)
    (epoch_info : Nat) (ec : EpochChallenge F)
    (combined_solution : CombinedPuzzleSolution F) : Bool :=
  let cmts := combined_solution.individual_puzzle_solutions.map (fun t => t.2.2)
  let z := (hash_commitments Hfs cmts).getLastD 0
  let challenges := (hash_commitments Hfs cmts).dropLast
  let polys := combined_solution.individual_puzzle_solutions.map
    (fun t => sample_solution_polynomial Hc ec epoch_info t.1 t.2.1)
  let combined_eval :=
    evalPoly ec.epoch_polynomial z
      * ((polys.zip challenges).map (fun pc => pc.2 * evalPoly pc.1 z)).sum
  kzg_check vk (msm cmts challenges) z combined_eval combined_solution.proof

end CoinbasePuzzle

/-- `CombinedPuzzleSolution::verify` (the `vm/compiler` verifier): rejects an
empty solution list and a hiding proof outright, errors (`none`) only if the
challenge list has no last element, and otherwise runs the same combined
check as `CoinbasePuzzle::verify`. -/
def CombinedPuzzleSolution.verify (Hc : List Nat → F) (Hfs : List F → Nat → F)
    (vk : VerifyingKey F) (epoch_info : Nat) (ec : EpochChallenge F)
    (self : CombinedPuzzleSolution F) : Option Bool :=
  if self.individual_puzzle_solutions.isEmpty then some false
  else if self.proof.is_hiding then some false
  else
    let polynomials := self.individual_puzzle_solutions.map
      (fun t => CoinbasePuzzle.sample_solution_polynomial Hc ec epoch_info t.1 t.2.1)
    let fs_challenges := hash_commitments Hfs
      (self.individual_puzzle_solutions.map (fun t => t.2.2))
    match fs_challenges.getLast? with
    | none => none  -- bail!("Missing challenge point")
    | some point =>
      let challenges := fs_challenges.dropLast
      let combined_eval :=
        ((polynomials.zip challenges).foldl
          (fun acc pc => acc + evalPoly pc.1 point * pc.2) 0)
          * evalPoly ec.epoch_polynomial point
      let commitments := self.individual_puzzle_solutions.map (fun t => t.2.2)
      let combined_commitment := msm commitments challenges
      some (kzg_check vk combined_commitment point combined_eval self.proof)

/-- `u64::MAX`. -/
def U64MAX : Nat := 2 ^ 64 - 1

/-- `u64::saturating_add`. -/
def saturating_add (a b : Nat) : Nat := min (a + b) U64MAX

/-- `u64::saturating_div`; for unsigned operands this is plain division (it
can never overflow).  Rust panics on a zero divisor; every claim using this
assumes a nonzero divisor. -/
def saturating_div (a b : Nat) : Nat := a / b

/-- The loop body of `to_cumulative_difficulty`; `tgt` is the (spec-opaque)
`PartialProverSolution::to_difficulty_target`, whose error propagates. -/
def cumulLoop (tgt : Nat × Nat × F → Option Nat) :
    List (Nat × Nat × F) → Nat → Option Nat
  | [], acc => some acc
  | s :: rest, acc =>
    match tgt s with
    | none => none
    | some t => cumulLoop tgt rest (saturating_add acc (saturating_div U64MAX t))

/-- `CombinedPuzzleSolution::to_cumulative_difficulty`. -/
def CombinedPuzzleSolution.to_cumulative_difficulty
    (tgt : Nat × Nat × F → Option Nat) (self : CombinedPuzzleSolution F) :
    Option Nat :=
  cumulLoop tgt self.individual_puzzle_solutions 0

/-- The commitment that `prove` advertises: the KZG commitment to the product
of the solution polynomial with the epoch polynomial. -/
def proveCommit (Hc : List Nat → F) (pk : ProvingKey F) (epoch_info : Nat)
    (ec : EpochChallenge F) (address nonce : Nat) : F :=
  kzg_commit pk.powers_of_beta_g
    (polyMul (CoinbasePuzzle.sample_solution_polynomial Hc ec epoch_info address nonce)
      ec.epoch_polynomial)

/-- The retained-solution triples that `accumulate` emits when every solution
in the input list is a `prove` output over the given keys and epoch. -/
def keptOf (Hc : List Nat → F) (pk : ProvingKey F) (epoch_info : Nat)
    (ec : EpochChallenge F) (pairs : List (Nat × Nat)) : List (Nat × Nat × F) :=
  pairs.map (fun pr => (pr.1, pr.2, proveCommit Hc pk epoch_info ec pr.1 pr.2))

/-- The genuine verifying key produced by `trim` from a genuine SRS:
`g ↦ 1`, `gamma_g ↦ 0` (identity), `h ↦ 1`, `β·h ↦ β`. -/
def genuineVK (β : F) : VerifyingKey F := ⟨1, 0, 1, β⟩

/-- The discrete-log shadow of the SRS power sequence `{β^i · g}`. -/
def powersL (β : F) (n : Nat) : List F := (List.range n).map (fun i => β ^ i)

end Core

section ConcreteInstance

/-!  A small concrete instantiation over `ZMod 101` used to exercise the
definitions on closed inputs: explicit hash functions, a genuine SRS with
`β = 3`, epoch degree 1 and trim degree 2 (so solution-product degrees fit
the SRS). -/

instance : Fact (Nat.Prime 101) := ⟨by norm_num⟩

def HcW : List Nat → ZMod 101 :=
  fun l => ((l.foldl (fun a b => (a * 3 + b) % 101) 1 : Nat) : ZMod 101)

def hashCmW : ZMod 101 → ZMod 101 := fun c => c * 7 + 2

def HfsW : List (ZMod 101) → Nat → ZMod 101 :=
  fun cs i => cs.foldl (fun a c => a * 5 + c) ((i : ZMod 101) + 3)

def lagW : Nat → Nat → ZMod 101 := fun _ _ => 0

def pkW : ProvingKey (ZMod 101) := ⟨[1, 3, 9], [(4, [0, 0, 0, 0])], ⟨1, 0, 1, 3⟩⟩

def vkW : VerifyingKey (ZMod 101) := ⟨1, 0, 1, 3⟩

def eiW : Nat := 7

def ecW : EpochChallenge (ZMod 101) := CoinbasePuzzle.init_for_epoch HcW eiW 1

def solW (a n : Nat) : ProverPuzzleSolution (ZMod 101) :=
  CoinbasePuzzle.prove HcW hashCmW pkW eiW ecW a n

def combinedTwoW : CombinedPuzzleSolution (ZMod 101) :=
  CoinbasePuzzle.accumulate HcW hashCmW HfsW pkW eiW ecW [solW 1 2, solW 3 4]

def swappedTwoW : CombinedPuzzleSolution (ZMod 101) :=
  ⟨combinedTwoW.individual_puzzle_solutions.reverse, combinedTwoW.proof⟩

def combinedDupW : CombinedPuzzleSolution (ZMod 101) :=
  CoinbasePuzzle.accumulate HcW hashCmW HfsW pkW eiW ecW [solW 1 2, solW 1 2]

def swappedDupW : CombinedPuzzleSolution (ZMod 101) :=
  ⟨combinedDupW.individual_puzzle_solutions.reverse, combinedDupW.proof⟩

def tgtW : Nat × Nat × ZMod 101 → Option Nat := fun s => some (s.2.1 + 1)

def csDiffW : CombinedPuzzleSolution (ZMod 101) := ⟨[(0, 0, 0), (1, 2, 5)], ⟨0, none⟩⟩

end ConcreteInstance

/-! ## Supporting lemmas -/

section Lemmas

variable {F : Type} [Field F] [DecidableEq F]

@[simp] theorem evalPoly_nil (x : F) : evalPoly ([] : List F) x = 0 := rfl

@[simp] theorem evalPoly_cons (c : F) (p : List F) (x : F) :
    evalPoly (c :: p) x = c + x * evalPoly p x := rfl

theorem eval_polySmul (c : F) (p : List F) (x : F) :
    evalPoly (polySmul c p) x = c * evalPoly p x := by
  induction p with
  | nil => simp [polySmul]
  | cons a p ih =>
    simp only [polySmul, List.map_cons, evalPoly_cons] at *
    rw [ih]; ring

theorem eval_polyAdd (p q : List F) (x : F) :
    evalPoly (polyAdd p q) x = evalPoly p x + evalPoly q x := by
  induction p generalizing q with
  | nil => simp [polyAdd]
  | cons a p ih =>
    cases q with
    | nil => simp [polyAdd]
    | cons b q =>
      simp only [polyAdd, evalPoly_cons]
      rw [ih]; ring

theorem eval_polyMul (p q : List F) (x : F) :
    evalPoly (polyMul p q) x = evalPoly p x * evalPoly q x := by
  induction p generalizing q with
  | nil => simp [polyMul]
  | cons a p ih =>
    cases q with
    | nil => simp [polyMul]
    | cons b q =>
      simp only [polyMul, eval_polyAdd, eval_polySmul, evalPoly_cons]
      rw [ih]
      simp only [evalPoly_cons]
      ring

theorem synthQuot_spec (p : List F) (z x : F) :
    evalPoly p x - evalPoly p z = (x - z) * evalPoly (synthQuot p z) x := by
  induction p with
  | nil => simp [synthQuot]
  | cons c p ih =>
    simp only [synthQuot, evalPoly_cons]
    linear_combination x * ih

@[simp] theorem toBytesLE_length (n len : Nat) : (toBytesLE n len).length = len := by
  simp [toBytesLE]

@[simp] theorem polySmul_length (c : F) (p : List F) :
    (polySmul c p).length = p.length := by
  simp [polySmul]

theorem polyAdd_length (p q : List F) :
    (polyAdd p q).length = max p.length q.length := by
  induction p generalizing q with
  | nil => simp [polyAdd]
  | cons a p ih =>
    cases q with
    | nil => simp [polyAdd]
    | cons b q =>
      simp only [polyAdd, List.length_cons, ih]
      omega

@[simp] theorem synthQuot_length (p : List F) (z : F) :
    (synthQuot p z).length = p.length := by
  induction p with
  | nil => rfl
  | cons c p ih => simp [synthQuot, ih]

theorem polyMul_length_le (p q : List F) :
    (polyMul p q).length ≤ p.length + q.length - 1 := by
  induction p generalizing q with
  | nil => simp [polyMul]
  | cons a p ih =>
    cases q with
    | nil => simp [polyMul]
    | cons b q =>
      have h := ih (b :: q)
      simp only [polyMul, polyAdd_length, polySmul_length, List.length_cons] at *
      omega

theorem zipWith_take_left {α β γ : Type} (f : α → β → γ) (l1 : List α) (l2 : List β) :
    List.zipWith f (l1.take l2.length) l2 = List.zipWith f l1 l2 := by
  induction l1 generalizing l2 with
  | nil => simp
  | cons a l1 ih =>
    cases l2 with
    | nil => simp
    | cons b l2 => simp [ih]

theorem zipWith_eq_map_zip {α β γ : Type} (g : α → β → γ) (l : List α) (l' : List β) :
    List.zipWith g l l' = (l.zip l').map (fun t => g t.1 t.2) := by
  induction l generalizing l' with
  | nil => simp
  | cons a l ih =>
    cases l' with
    | nil => simp
    | cons b l' => simp [List.zip_cons_cons, ih]

theorem sum_map_congr {α : Type} (l : List α) (f g : α → F)
    (h : ∀ y ∈ l, f y = g y) : (l.map f).sum = (l.map g).sum := by
  induction l with
  | nil => simp
  | cons a l ih =>
    simp only [List.map_cons, List.sum_cons, h a (by simp)]
    rw [ih (fun y hy => h y (by simp [hy]))]

theorem sum_map_mul_left' {α : Type} (l : List α) (f : α → F) (r : F) :
    (l.map (fun y => r * f y)).sum = r * (l.map f).sum := by
  induction l with
  | nil => simp
  | cons a l ih => simp [ih, mul_add]

theorem verify_fold_sum (l : List (List F × F)) (z a0 : F) :
    l.foldl (fun acc pc => acc + evalPoly pc.1 z * pc.2) a0
      = a0 + (l.map (fun pc => evalPoly pc.1 z * pc.2)).sum := by
  induction l generalizing a0 with
  | nil => simp
  | cons pc l ih => simp [ih, add_assoc]

theorem eval_foldl_polyAdd (l : List (List F × F)) (acc0 : List F) (x : F) :
    evalPoly (l.foldl (fun acc pc => polyAdd acc (polySmul pc.2 pc.1)) acc0) x
      = evalPoly acc0 x + (l.map (fun pc => pc.2 * evalPoly pc.1 x)).sum := by
  induction l generalizing acc0 with
  | nil => simp
  | cons pc l ih =>
    simp only [List.foldl_cons, List.map_cons, List.sum_cons, ih,
      eval_polyAdd, eval_polySmul]
    ring

theorem foldl_polyAdd_length_le (l : List (List F × F)) (acc0 : List F) (L : Nat)
    (h : ∀ pc ∈ l, pc.1.length ≤ L) (h0 : acc0.length ≤ L) :
    (l.foldl (fun acc pc => polyAdd acc (polySmul pc.2 pc.1)) acc0).length ≤ L := by
  induction l generalizing acc0 with
  | nil => simpa using h0
  | cons pc l ih =>
    simp only [List.foldl_cons]
    apply ih
    · intro y hy
      exact h y (List.mem_cons_of_mem _ hy)
    · have hpc := h pc (List.mem_cons_self _ _)
      rw [polyAdd_length, polySmul_length]
      omega

theorem filterMap_ite {α β : Type} (Q : α → Bool) (f : α → β) (l : List α) :
    (l.filterMap (fun s => if Q s then some (f s) else none)) = (l.filter Q).map f := by
  induction l with
  | nil => rfl
  | cons a l ih =>
    by_cases h : Q a <;>
      simp [List.filterMap_cons, List.filter_cons, h, ih]

theorem hash_commitments_eq (Hfs : List F → Nat → F) (cs : List F) :
    hash_commitments Hfs cs
      = ((List.range cs.length).map (Hfs cs)) ++ [Hfs cs cs.length] := by
  simp [hash_commitments, List.range_succ]

theorem hash_commitments_getLastD (Hfs : List F → Nat → F) (cs : List F) (d : F) :
    (hash_commitments Hfs cs).getLastD d = Hfs cs cs.length := by
  rw [hash_commitments_eq]
  simp [List.getLastD_concat]

theorem hash_commitments_dropLast (Hfs : List F → Nat → F) (cs : List F) :
    (hash_commitments Hfs cs).dropLast = (List.range cs.length).map (Hfs cs) := by
  rw [hash_commitments_eq]
  simp [List.dropLast_concat]

theorem hash_commitments_getLast? (Hfs : List F → Nat → F) (cs : List F) :
    (hash_commitments Hfs cs).getLast? = some (Hfs cs cs.length) := by
  rw [hash_commitments_eq]
  simp [List.getLast?_concat]

theorem zipWith_powersL_sum (β : F) (p : List F) :
    ∀ N : Nat, p.length ≤ N →
      (List.zipWith (fun b s => b * s) (powersL β N) p).sum = evalPoly p β := by
  induction p with
  | nil => simp
  | cons c p ih =>
    intro N hN
    cases N with
    | zero => simp at hN
    | succ N =>
      unfold powersL
      rw [List.range_succ_eq_map]
      simp only [List.map_cons, List.map_map, List.zipWith_cons_cons, pow_zero,
        List.sum_cons, one_mul, evalPoly_cons]
      have hcomp : (fun i => β ^ i) ∘ Nat.succ = fun i => β * ((fun j => β ^ j) i) := by
        funext i
        simp [pow_succ, mul_comm]
      rw [hcomp]
      have hmap : List.zipWith (fun b s => b * s)
            ((List.range N).map (fun i => β * ((fun j => β ^ j) i))) p
          = (List.zipWith (fun b s => b * s) ((List.range N).map (fun j => β ^ j)) p).map
              (fun y => β * y) := by
        rw [List.zipWith_map_left, List.zipWith_map_left, List.map_zipWith]
        simp [mul_assoc]
      rw [hmap]
      have hsum := sum_map_mul_left'
        (List.zipWith (fun b s => b * s) ((List.range N).map (fun j => β ^ j)) p) id β
      simp only [List.map_id] at hsum
      rw [show (fun y => β * y) = (fun y => β * id y) by rfl, hsum]
      rw [show (List.map (fun j => β ^ j) (List.range N)) = powersL β N from rfl,
        ih N (Nat.le_of_succ_le_succ hN)]

theorem kzg_commit_powersL (β : F) (N : Nat) (p : List F) (hp : p.length ≤ N) :
    kzg_commit (powersL β N) p = evalPoly p β := by
  unfold kzg_commit msm
  rw [zipWith_take_left]
  exact zipWith_powersL_sum β p N hp

theorem kzg_check_iff (vk : VerifyingKey F) (c z v : F) (prf : Proof F) :
    kzg_check vk c z v prf = true
      ↔ (c - v * vk.g) * vk.h = prf.w * (vk.beta_h - z * vk.h) := by
  simp [kzg_check]

/-- KZG completeness in the discrete-log shadow: a commitment to `p` over a
genuine power sequence, opened at `z` with the synthetic-division quotient,
passes the pairing check at the claimed value `p(z)`. -/
theorem kzg_open_check (β : F) (N : Nat) (p : List F) (hp : p.length ≤ N) (z : F) :
    kzg_check (genuineVK β) (kzg_commit (powersL β N) p) z (evalPoly p z)
      (kzg_open (powersL β N) p z) = true := by
  rw [kzg_check_iff]
  unfold kzg_open genuineVK
  simp only
  rw [kzg_commit_powersL β N p hp,
    kzg_commit_powersL β N _ (by rw [synthQuot_length]; exact hp)]
  have h := synthQuot_spec p z β
  linear_combination h

theorem trim_le {lag : Nat → Nat → F} {srs : SRS F} {degree : Nat}
    {pk : ProvingKey F} {vk : VerifyingKey F}
    (h : CoinbasePuzzle.trim lag srs degree = some (pk, vk)) :
    degree + 1 ≤ srs.powersOfBetaG.length := by
  by_contra hc
  unfold CoinbasePuzzle.trim at h
  rw [if_neg hc] at h
  exact Option.noConfusion h

theorem trim_mkSRS (lag : Nat → Nat → F) (β : F) (maxD degree : Nat)
    (h : degree ≤ maxD) :
    CoinbasePuzzle.trim lag (mkSRS β maxD) degree =
      some (⟨powersL β (degree + 1),
             [(nextPowerOfTwo (degree + 1),
               (List.range (nextPowerOfTwo (degree + 1))).map
                 (fun i => lag (nextPowerOfTwo (degree + 1)) i))],
             genuineVK β⟩, genuineVK β) := by
  unfold CoinbasePuzzle.trim mkSRS
  have hlen : degree + 1 ≤ ((List.range (maxD + 1)).map (fun i => β ^ i)).length := by
    simp; omega
  rw [if_pos hlen]
  have hpow : ((List.range (maxD + 1)).map (fun i => β ^ i)).take (degree + 1)
      = powersL β (degree + 1) := by
    rw [← List.map_take, List.take_range, Nat.min_eq_left (by omega)]
    rfl
  have hhead : ((List.range (maxD + 1)).map (fun i => β ^ i)).headD 0 = 1 := by
    rw [List.range_succ_eq_map]
    simp
  simp only [hpow, hhead]
  rfl

/-- `accumulate` is the post-filter builder applied to the `accKeep`-filtered
input, in input order. -/
theorem accumulate_eq_filter (Hc : List Nat → F) (hashCm : F → F)
    (Hfs : List F → Nat → F) (pk : ProvingKey F) (ei : Nat) (ec : EpochChallenge F)
    (sols : List (ProverPuzzleSolution F)) :
    CoinbasePuzzle.accumulate Hc hashCm Hfs pk ei ec sols
      = CoinbasePuzzle.acBuild Hfs pk ec
          ((sols.filter (CoinbasePuzzle.accKeep Hc hashCm pk ei ec)).map
            (CoinbasePuzzle.accEntry Hc ec ei)) := by
  unfold CoinbasePuzzle.accumulate
  rw [filterMap_ite]

/-- A freshly proved solution always passes the accumulator's KZG check when
the proving key is genuine and the product polynomial fits the SRS prefix. -/
theorem accKeep_prove (Hc : List Nat → F) (hashCm : F → F) (pk : ProvingKey F)
    (β : F) (degree : Nat) (ec : EpochChallenge F) (ei a n : Nat)
    (hpow : pk.powers_of_beta_g = powersL β (degree + 1))
    (hvk : pk.vk = genuineVK β)
    (hfit : (polyMul (CoinbasePuzzle.sample_solution_polynomial Hc ec ei a n)
        ec.epoch_polynomial).length ≤ degree + 1) :
    CoinbasePuzzle.accKeep Hc hashCm pk ei ec
      (CoinbasePuzzle.prove Hc hashCm pk ei ec a n) = true := by
  simp only [CoinbasePuzzle.accKeep, CoinbasePuzzle.prove]
  rw [hpow, hvk]
  have hv : ∀ pt : F, evalPoly ec.epoch_polynomial pt
        * evalPoly (CoinbasePuzzle.sample_solution_polynomial Hc ec ei a n) pt
      = evalPoly (polyMul (CoinbasePuzzle.sample_solution_polynomial Hc ec ei a n)
          ec.epoch_polynomial) pt := by
    intro pt
    rw [eval_polyMul]
    ring
  rw [hv]
  exact kzg_open_check β (degree + 1) _ hfit _

/-- When every input solution is a `prove` output that passes its check,
`accumulate` retains everything in order. -/
theorem accumulate_map_prove (Hc : List Nat → F) (hashCm : F → F)
    (Hfs : List F → Nat → F) (pk : ProvingKey F) (ei : Nat)
    (ec : EpochChallenge F) (pairs : List (Nat × Nat))
    (hkeep : ∀ pr : Nat × Nat, CoinbasePuzzle.accKeep Hc hashCm pk ei ec
        (CoinbasePuzzle.prove Hc hashCm pk ei ec pr.1 pr.2) = true) :
    CoinbasePuzzle.accumulate Hc hashCm Hfs pk ei ec
        (pairs.map (fun pr => CoinbasePuzzle.prove Hc hashCm pk ei ec pr.1 pr.2))
      = CoinbasePuzzle.acBuild Hfs pk ec (pairs.map (fun pr =>
          (CoinbasePuzzle.sample_solution_polynomial Hc ec ei pr.1 pr.2,
           (pr.1, pr.2, proveCommit Hc pk ei ec pr.1 pr.2)))) := by
  rw [accumulate_eq_filter]
  have hfilter : (pairs.map (fun pr => CoinbasePuzzle.prove Hc hashCm pk ei ec pr.1 pr.2)).filter
        (CoinbasePuzzle.accKeep Hc hashCm pk ei ec)
      = pairs.map (fun pr => CoinbasePuzzle.prove Hc hashCm pk ei ec pr.1 pr.2) := by
    rw [List.filter_eq_self]
    intro s hs
    obtain ⟨pr, _, rfl⟩ := List.mem_map.mp hs
    exact hkeep pr
  rw [hfilter, List.map_map]
  rfl

theorem verify_acBuild (Hc : List Nat → F) (Hfs : List F → Nat → F) (β : F)
    (degree d ei : Nat) (ec : EpochChallenge F) (pairs : List (Nat × Nat))
    (pk : ProvingKey F)
    (hpow : pk.powers_of_beta_g = powersL β (degree + 1))
    (hClen : ec.epoch_polynomial.length = d + 1)
    (hd : 2 * d ≤ degree)
    (hPlen : ∀ a n : Nat, (CoinbasePuzzle.sample_solution_polynomial Hc ec ei a n).length = d + 1) :
    CoinbasePuzzle.verify Hc Hfs (genuineVK β) ei ec
      (CoinbasePuzzle.acBuild Hfs pk ec (pairs.map (fun pr =>
        (CoinbasePuzzle.sample_solution_polynomial Hc ec ei pr.1 pr.2,
         (pr.1, pr.2, proveCommit Hc pk ei ec pr.1 pr.2))))) = true := by
  have hfit : ∀ a n : Nat,
      (polyMul (CoinbasePuzzle.sample_solution_polynomial Hc ec ei a n)
        ec.epoch_polynomial).length ≤ degree + 1 := by
    intro a n
    have h1 := polyMul_length_le (CoinbasePuzzle.sample_solution_polynomial Hc ec ei a n)
      ec.epoch_polynomial
    rw [hPlen a n, hClen] at h1
    omega
  have hcm : ∀ a n : Nat, proveCommit Hc pk ei ec a n
      = evalPoly (polyMul (CoinbasePuzzle.sample_solution_polynomial Hc ec ei a n)
          ec.epoch_polynomial) β := by
    intro a n
    unfold proveCommit
    rw [hpow, kzg_commit_powersL β (degree + 1) _ (hfit a n)]
  simp only [CoinbasePuzzle.verify, CoinbasePuzzle.acBuild, List.map_map]
  simp only [Function.comp_def]
  rw [hash_commitments_getLastD, hash_commitments_dropLast]
  simp only [List.length_map]
  set cs := List.map (fun x => proveCommit Hc pk ei ec x.1 x.2) pairs with hcs
  set z := Hfs cs pairs.length with hz
  set chals := List.map (Hfs cs) (List.range pairs.length) with hchals
  set polys := List.map
    (fun x => CoinbasePuzzle.sample_solution_polynomial Hc ec ei x.1 x.2) pairs with hpolys
  set cp := List.foldl (fun acc pc => polyAdd acc (polySmul pc.2 pc.1)) []
    (polys.zip chals) with hcp
  set Q := polyMul cp ec.epoch_polynomial with hQ
  have hzip : polys.zip chals = (pairs.zip chals).map
      (fun t => (CoinbasePuzzle.sample_solution_polynomial Hc ec ei t.1.1 t.1.2, t.2)) := by
    rw [hpolys, List.zip_map_left]
    rfl
  have hcp_eval : ∀ x : F, evalPoly cp x
      = ((pairs.zip chals).map (fun t =>
          t.2 * evalPoly (CoinbasePuzzle.sample_solution_polynomial Hc ec ei t.1.1 t.1.2) x)).sum := by
    intro x
    rw [hcp, eval_foldl_polyAdd, evalPoly_nil, zero_add, hzip, List.map_map]
    simp only [Function.comp_def]
  have hcplen : cp.length ≤ d + 1 := by
    rw [hcp]
    apply foldl_polyAdd_length_le
    · intro pc hpc
      have h1 := (List.of_mem_zip hpc).1
      rw [hpolys] at h1
      obtain ⟨pr, hmem, heq⟩ := List.mem_map.mp h1
      rw [← heq]
      exact le_of_eq (hPlen pr.1 pr.2)
    · simp
  have hQlen : Q.length ≤ degree + 1 := by
    rw [hQ]
    have h1 := polyMul_length_le cp ec.epoch_polynomial
    rw [hClen] at h1
    omega
  have hsqlen : (synthQuot Q z).length ≤ degree + 1 := by
    rw [synthQuot_length]
    exact hQlen
  have hmsm : msm cs chals = ((pairs.zip chals).map
      (fun t => proveCommit Hc pk ei ec t.1.1 t.1.2 * t.2)).sum := by
    unfold msm
    rw [zipWith_eq_map_zip, hcs, List.zip_map_left, List.map_map]
    rfl
  have hCC : msm cs chals = evalPoly Q β := by
    rw [hmsm]
    have h1 : ∀ t ∈ pairs.zip chals,
        proveCommit Hc pk ei ec t.1.1 t.1.2 * t.2
          = evalPoly ec.epoch_polynomial β
              * (t.2 * evalPoly (CoinbasePuzzle.sample_solution_polynomial Hc ec ei t.1.1 t.1.2) β) := by
      intro t _
      rw [hcm, eval_polyMul]
      ring
    rw [sum_map_congr _ _ _ h1, sum_map_mul_left', ← hcp_eval β, hQ, eval_polyMul]
    ring
  have hCE : (List.foldl (fun acc pc => acc + evalPoly pc.1 z * pc.2) 0 (polys.zip chals))
      * evalPoly ec.epoch_polynomial z = evalPoly Q z := by
    rw [verify_fold_sum, zero_add, hzip, List.map_map]
    simp only [Function.comp_def]
    have h1 : ∀ t ∈ pairs.zip chals,
        evalPoly (CoinbasePuzzle.sample_solution_polynomial Hc ec ei t.1.1 t.1.2) z * t.2
          = t.2 * evalPoly (CoinbasePuzzle.sample_solution_polynomial Hc ec ei t.1.1 t.1.2) z := by
      intro t _
      ring
    rw [sum_map_congr _ _ _ h1, ← hcp_eval z, hQ, eval_polyMul]
  rw [kzg_check_iff]
  simp only [genuineVK, kzg_open]
  rw [hpow, kzg_commit_powersL β (degree + 1) _ hsqlen]
  rw [hCC, hCE]
  have hspec := synthQuot_spec Q z β
  linear_combination hspec

/-- Completeness workhorse: a trimmed genuine key pair, an epoch challenge of
degree `d` with `2d ≤ degree`, and any list of `(address, nonce)` pairs give
an accumulated solution that retains every proof in order and verifies. -/
theorem completeness_main (Hc : List Nat → F) (hashCm : F → F) (Hfs : List F → Nat → F)
    (lag : Nat → Nat → F) (β : F) (maxD degree d ei : Nat)
    (pairs : List (Nat × Nat)) (pk : ProvingKey F) (vk : VerifyingKey F)
    (htrim : CoinbasePuzzle.trim lag (mkSRS β maxD) degree = some (pk, vk))
    (hd : 2 * d ≤ degree) :
    (CoinbasePuzzle.accumulate Hc hashCm Hfs pk ei (CoinbasePuzzle.init_for_epoch Hc ei d)
        (pairs.map (fun pr => CoinbasePuzzle.prove Hc hashCm pk ei
          (CoinbasePuzzle.init_for_epoch Hc ei d) pr.1 pr.2))).individual_puzzle_solutions
      = keptOf Hc pk ei (CoinbasePuzzle.init_for_epoch Hc ei d) pairs
    ∧ CoinbasePuzzle.verify Hc Hfs vk ei (CoinbasePuzzle.init_for_epoch Hc ei d)
        (CoinbasePuzzle.accumulate Hc hashCm Hfs pk ei (CoinbasePuzzle.init_for_epoch Hc ei d)
          (pairs.map (fun pr => CoinbasePuzzle.prove Hc hashCm pk ei
            (CoinbasePuzzle.init_for_epoch Hc ei d) pr.1 pr.2))) = true := by
  have hle : degree ≤ maxD := by
    have h1 := trim_le htrim
    simp only [mkSRS, List.length_map, List.length_range] at h1
    omega
  rw [trim_mkSRS lag β maxD degree hle, Option.some.injEq, Prod.mk.injEq] at htrim
  obtain ⟨hpk, hvk⟩ := htrim
  have hpow : pk.powers_of_beta_g = powersL β (degree + 1) := by rw [← hpk]
  have hpkvk : pk.vk = genuineVK β := by rw [← hpk]
  have hClen : (CoinbasePuzzle.init_for_epoch Hc ei d).epoch_polynomial.length = d + 1 := by
    simp [CoinbasePuzzle.init_for_epoch, hash_to_poly]
  have hPlen : ∀ a n : Nat,
      (CoinbasePuzzle.sample_solution_polynomial Hc
        (CoinbasePuzzle.init_for_epoch Hc ei d) ei a n).length = d + 1 := by
    intro a n
    simp only [CoinbasePuzzle.sample_solution_polynomial, hash_to_poly,
      List.length_map, List.length_range, EpochChallenge.degree, hClen]
    omega
  have hfit : ∀ a n : Nat,
      (polyMul (CoinbasePuzzle.sample_solution_polynomial Hc
          (CoinbasePuzzle.init_for_epoch Hc ei d) ei a n)
        (CoinbasePuzzle.init_for_epoch Hc ei d).epoch_polynomial).length ≤ degree + 1 := by
    intro a n
    have h1 := polyMul_length_le
      (CoinbasePuzzle.sample_solution_polynomial Hc (CoinbasePuzzle.init_for_epoch Hc ei d) ei a n)
      (CoinbasePuzzle.init_for_epoch Hc ei d).epoch_polynomial
    rw [hPlen a n, hClen] at h1
    omega
  have hkeep : ∀ pr : Nat × Nat,
      CoinbasePuzzle.accKeep Hc hashCm pk ei (CoinbasePuzzle.init_for_epoch Hc ei d)
        (CoinbasePuzzle.prove Hc hashCm pk ei (CoinbasePuzzle.init_for_epoch Hc ei d) pr.1 pr.2)
        = true :=
    fun pr => accKeep_prove Hc hashCm pk β degree _ ei pr.1 pr.2 hpow hpkvk (hfit pr.1 pr.2)
  rw [accumulate_map_prove Hc hashCm Hfs pk ei _ pairs hkeep]
  constructor
  · simp only [CoinbasePuzzle.acBuild, keptOf, List.map_map, Function.comp_def]
  · rw [← hvk]
    exact verify_acBuild Hc Hfs β degree d ei _ pairs pk hpow hClen hd hPlen

theorem copySlice_exact (pre mid post src : List Nat) (hlen : src.length = mid.length) :
    copySlice (pre ++ mid ++ post) pre.length src = pre ++ src ++ post := by
  unfold copySlice
  have h1 : (pre ++ mid ++ post).take pre.length = pre := by
    rw [List.append_assoc]
    exact List.take_left pre (mid ++ post)
  have h2 : (pre ++ mid ++ post).drop (pre.length + src.length) = post := by
    rw [hlen, ← List.length_append]
    exact List.drop_left (pre ++ mid) post
  rw [h1, h2]

theorem sample_buffer_eq (ei a n : Nat) :
    copySlice (copySlice (copySlice (List.replicate 48 0) 0 (toBytesLE ei 8)) 8
        (toBytesLE a 32)) 40 (toBytesLE n 8)
      = toBytesLE ei 8 ++ toBytesLE a 32 ++ toBytesLE n 8 := by
  have e1 : copySlice (List.replicate 48 (0 : Nat)) 0 (toBytesLE ei 8)
      = toBytesLE ei 8 ++ List.replicate 40 0 := by
    have h := copySlice_exact [] (List.replicate 8 0) (List.replicate 40 0)
      (toBytesLE ei 8) (by simp)
    simpa [← List.replicate_add] using h
  have e2 : copySlice (toBytesLE ei 8 ++ List.replicate 40 (0 : Nat)) 8 (toBytesLE a 32)
      = toBytesLE ei 8 ++ toBytesLE a 32 ++ List.replicate 8 0 := by
    have h := copySlice_exact (toBytesLE ei 8) (List.replicate 32 0) (List.replicate 8 0)
      (toBytesLE a 32) (by simp)
    rw [toBytesLE_length] at h
    simpa [List.append_assoc, ← List.replicate_add] using h
  have e3 : copySlice (toBytesLE ei 8 ++ toBytesLE a 32 ++ List.replicate 8 (0 : Nat)) 40
        (toBytesLE n 8)
      = toBytesLE ei 8 ++ toBytesLE a 32 ++ toBytesLE n 8 := by
    have h := copySlice_exact (toBytesLE ei 8 ++ toBytesLE a 32) (List.replicate 8 0) []
      (toBytesLE n 8) (by simp)
    rw [List.length_append, toBytesLE_length, toBytesLE_length] at h
    simpa using h
  rw [e1, e2, e3]

/-! ## Claim theorems -/

/-- C3: `prove` returns a solution whose commitment is the (non-hiding) KZG
commitment to the product `p · C` of the sampled solution polynomial with the
epoch polynomial, whose proof is the KZG opening of that same product at the
point `hash_commitment(commitment)` carrying no hiding randomness, and whose
address and nonce equal the inputs. -/
theorem C3_prove_structure (Hc : List Nat → F) (hashCm : F → F) (pk : ProvingKey F)
    (ei : Nat) (ec : EpochChallenge F) (a n : Nat) :
    CoinbasePuzzle.prove Hc hashCm pk ei ec a n
      = { address := a, nonce := n,
          commitment := kzg_commit pk.powers_of_beta_g
            (polyMul (CoinbasePuzzle.sample_solution_polynomial Hc ec ei a n)
              ec.epoch_polynomial),
          proof := kzg_open pk.powers_of_beta_g
            (polyMul (CoinbasePuzzle.sample_solution_polynomial Hc ec ei a n)
              ec.epoch_polynomial)
            (hashCm (kzg_commit pk.powers_of_beta_g
              (polyMul (CoinbasePuzzle.sample_solution_polynomial Hc ec ei a n)
                ec.epoch_polynomial))) }
    ∧ (CoinbasePuzzle.prove Hc hashCm pk ei ec a n).proof.random_v = none :=
  ⟨rfl, rfl⟩

/-- C4: `accumulate` keeps exactly the solutions whose KZG check at
`z_i = hash_commitment(C_i)` against `v_i = C(z_i)·p_i(z_i)` passes, in input
order, drops the rest silently, and the whole output (including the
Fiat-Shamir transcript over the retained commitments) equals the output on
the pre-filtered list. -/
theorem C4_accumulate_filters (Hc : List Nat → F) (hashCm : F → F)
    (Hfs : List F → Nat → F) (pk : ProvingKey F) (ei : Nat) (ec : EpochChallenge F)
    (sols : List (ProverPuzzleSolution F)) :
    (CoinbasePuzzle.accumulate Hc hashCm Hfs pk ei ec sols).individual_puzzle_solutions
      = (sols.filter (CoinbasePuzzle.accKeep Hc hashCm pk ei ec)).map
          (fun s => (s.address, s.nonce, s.commitment))
    ∧ CoinbasePuzzle.accumulate Hc hashCm Hfs pk ei ec sols
      = CoinbasePuzzle.accumulate Hc hashCm Hfs pk ei ec
          (sols.filter (CoinbasePuzzle.accKeep Hc hashCm pk ei ec)) := by
  constructor
  · rw [accumulate_eq_filter]
    simp only [CoinbasePuzzle.acBuild, CoinbasePuzzle.accEntry, List.map_map,
      Function.comp_def]
  · rw [accumulate_eq_filter, accumulate_eq_filter, List.filter_filter]
    simp only [Bool.and_self]

/-- C7: the solution polynomial is `hash_to_poly` at degree `deg(C)` of
exactly the 48-byte buffer `epoch_info_le(8) ‖ address_le(32) ‖ nonce_le(8)`. -/
theorem C7_sample_input_buffer (Hc : List Nat → F) (ec : EpochChallenge F)
    (ei a n : Nat) :
    CoinbasePuzzle.sample_solution_polynomial Hc ec ei a n
      = hash_to_poly Hc (toBytesLE ei 8 ++ toBytesLE a 32 ++ toBytesLE n 8) ec.degree
    ∧ (toBytesLE ei 8 ++ toBytesLE a 32 ++ toBytesLE n 8).length = 48 := by
  constructor
  · simp only [CoinbasePuzzle.sample_solution_polynomial]
    rw [sample_buffer_eq]
  · simp

/-- C8: an accepted `trim` yields a proving key whose power list has length
`degree + 1`, whose Lagrange map holds exactly one entry keyed by
`next_power_of_two(degree + 1)` (of matching length), and whose embedded
verifying key pins `gamma_g` to the identity. -/
theorem C8_trim_invariants (lag : Nat → Nat → F) (srs : SRS F) (degree : Nat)
    (pk : ProvingKey F) (vk : VerifyingKey F)
    (h : CoinbasePuzzle.trim lag srs degree = some (pk, vk)) :
    pk.powers_of_beta_g.length = degree + 1
    ∧ pk.lagrange_bases_at_beta_g.map Prod.fst = [nextPowerOfTwo (degree + 1)]
    ∧ (∀ e ∈ pk.lagrange_bases_at_beta_g, e.2.length = e.1)
    ∧ pk.vk.gamma_g = 0 := by
  have hle := trim_le h
  unfold CoinbasePuzzle.trim at h
  rw [if_pos hle, Option.some.injEq, Prod.mk.injEq] at h
  obtain ⟨hpk, hvk⟩ := h
  rw [← hpk]
  refine ⟨?_, rfl, ?_, rfl⟩
  · show (srs.powersOfBetaG.take (degree + 1)).length = degree + 1
    rw [List.length_take]
    omega
  · intro e he
    rw [List.mem_singleton] at he
    subst he
    simp

/-- C1: completeness round trip — for any key pair produced by `trim` over a
genuine SRS, any epoch challenge fitting the SRS (`2·deg(C) ≤ degree`), and
any list of distinct `(address, nonce)` pairs, verifying the accumulation of
the individual proofs returns `true`. -/
theorem C1_completeness_round_trip (Hc : List Nat → F) (hashCm : F → F)
    (Hfs : List F → Nat → F) (lag : Nat → Nat → F) (β : F)
    (maxD degree d ei : Nat) (pairs : List (Nat × Nat))
    (pk : ProvingKey F) (vk : VerifyingKey F)
    (htrim : CoinbasePuzzle.trim lag (mkSRS β maxD) degree = some (pk, vk))
    (hd : 2 * d ≤ degree)
    (hdistinct : pairs.Nodup) :
    CoinbasePuzzle.verify Hc Hfs vk ei (CoinbasePuzzle.init_for_epoch Hc ei d)
      (CoinbasePuzzle.accumulate Hc hashCm Hfs pk ei
        (CoinbasePuzzle.init_for_epoch Hc ei d)
        (pairs.map (fun pr => CoinbasePuzzle.prove Hc hashCm pk ei
          (CoinbasePuzzle.init_for_epoch Hc ei d) pr.1 pr.2))) = true :=
  (completeness_main Hc hashCm Hfs lag β maxD degree d ei pairs pk vk htrim hd).2

/-- C2: for a non-empty combined solution, `verify` computes exactly the
spec-side formula — challenges and evaluation point from `hash_commitments`
of the stored commitments (last element is `z`),
`combined_eval = C(z)·Σ α_i·p_i(z)`, `combined_commitment = MSM({C_i},{α_i})`,
decided by the single KZG pairing check. -/
theorem C2_verify_refines_spec (Hc : List Nat → F) (Hfs : List F → Nat → F)
    (vk : VerifyingKey F) (ei : Nat) (ec : EpochChallenge F)
    (cs : CombinedPuzzleSolution F)
    (hne : cs.individual_puzzle_solutions ≠ []) :
    CoinbasePuzzle.verify Hc Hfs vk ei ec cs
      = CoinbasePuzzle.verify_spec Hc Hfs vk ei ec cs := by
  simp only [CoinbasePuzzle.verify, CoinbasePuzzle.verify_spec]
  rw [verify_fold_sum, zero_add]
  congr 1
  rw [mul_comm]
  congr 1
  exact sum_map_congr _ _ _ (fun t _ => mul_comm _ _)

/-- C5: `accumulate` on an empty or fully rejected input returns a
structurally valid combined solution with an empty retained list, and the
combined verifier returns `Ok(false)` on any combined solution whose
retained list is empty. -/
theorem C5_empty_behaviour (Hc : List Nat → F) (hashCm : F → F)
    (Hfs : List F → Nat → F) (pk : ProvingKey F) (vk : VerifyingKey F)
    (ei : Nat) (ec : EpochChallenge F) :
    (CoinbasePuzzle.accumulate Hc hashCm Hfs pk ei ec
        ([] : List (ProverPuzzleSolution F))).individual_puzzle_solutions = []
    ∧ (∀ sols : List (ProverPuzzleSolution F),
        (∀ s ∈ sols, CoinbasePuzzle.accKeep Hc hashCm pk ei ec s = false) →
        (CoinbasePuzzle.accumulate Hc hashCm Hfs pk ei ec
          sols).individual_puzzle_solutions = [])
    ∧ (∀ cs : CombinedPuzzleSolution F, cs.individual_puzzle_solutions = [] →
        CombinedPuzzleSolution.verify Hc Hfs vk ei ec cs = some false) := by
  refine ⟨rfl, ?_, ?_⟩
  · intro sols hall
    rw [accumulate_eq_filter]
    have hnil : sols.filter (CoinbasePuzzle.accKeep Hc hashCm pk ei ec) = [] := by
      rw [List.filter_eq_nil_iff]
      intro a ha
      simp [hall a ha]
    rw [hnil]
    rfl
  · intro cs hempty
    unfold CombinedPuzzleSolution.verify
    rw [if_pos]
    simp [hempty]

theorem cumulLoop_eq (tgt : Nat × Nat × F → Option Nat) (l : List (Nat × Nat × F)) :
    ∀ (ts : List Nat) (acc : Nat), l.map tgt = ts.map some →
      cumulLoop tgt l acc
        = some (ts.foldl (fun a t => saturating_add a (saturating_div U64MAX t)) acc) := by
  induction l with
  | nil =>
    intro ts acc h
    have : ts = [] := by
      cases ts with
      | nil => rfl
      | cons t ts => simp at h
    subst this
    rfl
  | cons s l ih =>
    intro ts acc h
    cases ts with
    | nil => simp at h
    | cons t ts =>
      simp only [List.map_cons, List.cons.injEq] at h
      obtain ⟨h1, h2⟩ := h
      simp only [cumulLoop, h1, List.foldl_cons]
      exact ih ts _ h2

theorem foldl_sat_le (ts : List Nat) :
    ∀ acc : Nat, acc ≤ U64MAX →
      ts.foldl (fun a t => saturating_add a (saturating_div U64MAX t)) acc ≤ U64MAX := by
  induction ts with
  | nil => intro acc h; simpa using h
  | cons t ts ih =>
    intro acc h
    simp only [List.foldl_cons]
    exact ih _ (Nat.min_le_right _ _)

/-- C10: when every retained solution has a difficulty target (all nonzero),
`to_cumulative_difficulty` returns the saturating sum of
`u64::MAX / target_i`; the result never wraps and is capped at `u64::MAX`. -/
theorem C10_cumulative_difficulty (tgt : Nat × Nat × F → Option Nat)
    (cs : CombinedPuzzleSolution F) (ts : List Nat)
    (hmap : cs.individual_puzzle_solutions.map tgt = ts.map some)
    (hnz : ∀ t ∈ ts, t ≠ 0) :
    CombinedPuzzleSolution.to_cumulative_difficulty tgt cs
      = some (ts.foldl (fun acc t => saturating_add acc (saturating_div U64MAX t)) 0)
    ∧ ts.foldl (fun acc t => saturating_add acc (saturating_div U64MAX t)) 0 ≤ U64MAX :=
  ⟨cumulLoop_eq tgt cs.individual_puzzle_solutions ts 0 hmap,
   foldl_sat_le ts 0 (by simp [U64MAX])⟩

/-- C9: cryptographic rejection is never an error — on any structurally
well-formed combined solution (non-empty list, non-hiding proof), the
`vm/compiler` verifier returns `Ok` of the same boolean that the
`algorithms` verifier computes (`false` exactly when the pairing check
fails), and `accumulate` only ever drops rejected solutions (its output list
is never longer than its input; it returns rather than erroring). -/
theorem C9_rejection_not_error (Hc : List Nat → F) (hashCm : F → F)
    (Hfs : List F → Nat → F) (vk : VerifyingKey F) (ei : Nat)
    (ec : EpochChallenge F) (cs : CombinedPuzzleSolution F)
    (h1 : cs.individual_puzzle_solutions ≠ [])
    (h2 : cs.proof.random_v = none) :
    CombinedPuzzleSolution.verify Hc Hfs vk ei ec cs
      = some (CoinbasePuzzle.verify Hc Hfs vk ei ec cs)
    ∧ ∀ (pk : ProvingKey F) (sols : List (ProverPuzzleSolution F)),
        (CoinbasePuzzle.accumulate Hc hashCm Hfs pk ei ec
          sols).individual_puzzle_solutions.length ≤ sols.length := by
  constructor
  · unfold CombinedPuzzleSolution.verify CoinbasePuzzle.verify
    rw [if_neg (by simp [h1]), if_neg (by simp [Proof.is_hiding, h2])]
    simp only [hash_commitments_getLast?, hash_commitments_getLastD]
  · intro pk sols
    rw [accumulate_eq_filter]
    show ((((sols.filter (CoinbasePuzzle.accKeep Hc hashCm pk ei ec)).map
      (CoinbasePuzzle.accEntry Hc ec ei)).map Prod.snd).length) ≤ sols.length
    rw [List.length_map, List.length_map]
    exact List.length_filter_le _ sols

/-- C6 (amended): accumulating a permuted input list permutes the retained
triples and the challenge assignment consistently and still verifies; but
permuting the `individual_puzzle_solutions` of a built combined solution
without recomputing its proof only falsifies `verify` when the commitment
sequence actually changes — here shown falsified at a concrete instance with
distinct commitments (second conjunct). -/
theorem C6_permutation_coherence :
    (∀ (G : Type) [Field G] [DecidableEq G]
        (Hc : List Nat → G) (hashCm : G → G) (Hfs : List G → Nat → G)
        (lag : Nat → Nat → G) (β : G) (maxD degree d ei : Nat)
        (pairs pairs2 : List (Nat × Nat)) (pk : ProvingKey G) (vk : VerifyingKey G),
        pairs2.Perm pairs →
        CoinbasePuzzle.trim lag (mkSRS β maxD) degree = some (pk, vk) →
        2 * d ≤ degree →
        ((CoinbasePuzzle.accumulate Hc hashCm Hfs pk ei
            (CoinbasePuzzle.init_for_epoch Hc ei d)
            (pairs2.map (fun pr => CoinbasePuzzle.prove Hc hashCm pk ei
              (CoinbasePuzzle.init_for_epoch Hc ei d) pr.1 pr.2))).individual_puzzle_solutions
          = keptOf Hc pk ei (CoinbasePuzzle.init_for_epoch Hc ei d) pairs2
        ∧ CoinbasePuzzle.verify Hc Hfs vk ei (CoinbasePuzzle.init_for_epoch Hc ei d)
            (CoinbasePuzzle.accumulate Hc hashCm Hfs pk ei
              (CoinbasePuzzle.init_for_epoch Hc ei d)
              (pairs2.map (fun pr => CoinbasePuzzle.prove Hc hashCm pk ei
                (CoinbasePuzzle.init_for_epoch Hc ei d) pr.1 pr.2))) = true))
    ∧ CoinbasePuzzle.verify HcW HfsW vkW eiW ecW swappedTwoW = false := by
  constructor
  · intro G _ _ Hc hashCm Hfs lag β maxD degree d ei pairs pairs2 pk vk hperm htrim hd
    exact completeness_main Hc hashCm Hfs lag β maxD degree d ei pairs2 pk vk htrim hd
  · set_option maxRecDepth 1000000 in decide

set_option maxRecDepth 1000000 in
/-- C6 counterexample: the claim "permuting the individual_solutions order of
an already-built valid combined solution without recomputing its proof makes
verify return false" fails as stated — reversing the retained list of a
valid combined solution built from two identical prover solutions (duplicates
are permitted inputs) is a permutation of its order, yet `verify` still
returns `true` because the commitment sequence is unchanged. -/
theorem C6_counterexample :
    CoinbasePuzzle.verify HcW HfsW vkW eiW ecW combinedDupW = true
    ∧ combinedDupW.individual_puzzle_solutions.length = 2
    ∧ swappedDupW.individual_puzzle_solutions
        = combinedDupW.individual_puzzle_solutions.reverse
    ∧ swappedDupW.proof = combinedDupW.proof
    ∧ CoinbasePuzzle.verify HcW HfsW vkW eiW ecW swappedDupW = true :=
  ⟨by decide, by decide, rfl, rfl, by decide⟩

set_option maxRecDepth 1000000 in
/-- C1 witness at a concrete instance over `ZMod 101`. -/
theorem C1_witness :
    CoinbasePuzzle.verify HcW HfsW vkW eiW (CoinbasePuzzle.init_for_epoch HcW eiW 1)
      (CoinbasePuzzle.accumulate HcW hashCmW HfsW pkW eiW
        (CoinbasePuzzle.init_for_epoch HcW eiW 1)
        (([(1, 2), (3, 4)] : List (Nat × Nat)).map
          (fun pr => CoinbasePuzzle.prove HcW hashCmW pkW eiW
            (CoinbasePuzzle.init_for_epoch HcW eiW 1) pr.1 pr.2))) = true :=
  C1_completeness_round_trip HcW hashCmW HfsW lagW 3 2 2 1 eiW [(1, 2), (3, 4)] pkW vkW
    (by decide) (by decide) (by decide)

set_option maxRecDepth 1000000 in
/-- C2 witness at a concrete non-empty combined solution. -/
theorem C2_witness :
    CoinbasePuzzle.verify HcW HfsW vkW eiW ecW combinedTwoW
      = CoinbasePuzzle.verify_spec HcW HfsW vkW eiW ecW combinedTwoW :=
  C2_verify_refines_spec HcW HfsW vkW eiW ecW combinedTwoW (by decide)

/-- C5 witness: empty accumulation retains nothing and the combined verifier
rejects an empty combined solution. -/
theorem C5_witness :
    (CoinbasePuzzle.accumulate HcW hashCmW HfsW pkW eiW ecW
        ([] : List (ProverPuzzleSolution (ZMod 101)))).individual_puzzle_solutions = []
    ∧ CombinedPuzzleSolution.verify HcW HfsW vkW eiW ecW
        (⟨[], ⟨0, none⟩⟩ : CombinedPuzzleSolution (ZMod 101)) = some false :=
  ⟨(C5_empty_behaviour HcW hashCmW HfsW pkW vkW eiW ecW).1,
   (C5_empty_behaviour HcW hashCmW HfsW pkW vkW eiW ecW).2.2 ⟨[], ⟨0, none⟩⟩ rfl⟩

set_option maxRecDepth 1000000 in
/-- C6 witness: the amended statement applied at a concrete permuted list. -/
theorem C6_witness :
    ((CoinbasePuzzle.accumulate HcW hashCmW HfsW pkW eiW
        (CoinbasePuzzle.init_for_epoch HcW eiW 1)
        (([(3, 4), (1, 2)] : List (Nat × Nat)).map
          (fun pr => CoinbasePuzzle.prove HcW hashCmW pkW eiW
            (CoinbasePuzzle.init_for_epoch HcW eiW 1) pr.1 pr.2))).individual_puzzle_solutions
      = keptOf HcW pkW eiW (CoinbasePuzzle.init_for_epoch HcW eiW 1) [(3, 4), (1, 2)]
    ∧ CoinbasePuzzle.verify HcW HfsW vkW eiW (CoinbasePuzzle.init_for_epoch HcW eiW 1)
        (CoinbasePuzzle.accumulate HcW hashCmW HfsW pkW eiW
          (CoinbasePuzzle.init_for_epoch HcW eiW 1)
          (([(3, 4), (1, 2)] : List (Nat × Nat)).map
            (fun pr => CoinbasePuzzle.prove HcW hashCmW pkW eiW
              (CoinbasePuzzle.init_for_epoch HcW eiW 1) pr.1 pr.2))) = true)
    ∧ CoinbasePuzzle.verify HcW HfsW vkW eiW ecW swappedTwoW = false :=
  ⟨C6_permutation_coherence.1 (ZMod 101) HcW hashCmW HfsW lagW 3 2 2 1 eiW
      [(1, 2), (3, 4)] [(3, 4), (1, 2)] pkW vkW (by decide) (by decide) (by decide),
   C6_permutation_coherence.2⟩

set_option maxRecDepth 100000 in
/-- C8 witness at a concrete trim. -/
theorem C8_witness :
    pkW.powers_of_beta_g.length = 3
    ∧ pkW.lagrange_bases_at_beta_g.map Prod.fst = [nextPowerOfTwo 3]
    ∧ (∀ e ∈ pkW.lagrange_bases_at_beta_g, e.2.length = e.1)
    ∧ pkW.vk.gamma_g = 0 :=
  C8_trim_invariants lagW (mkSRS 3 2) 2 pkW vkW (by decide)

set_option maxRecDepth 1000000 in
/-- C9 witness at a concrete well-formed combined solution. -/
theorem C9_witness :
    CombinedPuzzleSolution.verify HcW HfsW vkW eiW ecW combinedTwoW
      = some (CoinbasePuzzle.verify HcW HfsW vkW eiW ecW combinedTwoW)
    ∧ ∀ (pk : ProvingKey (ZMod 101)) (sols : List (ProverPuzzleSolution (ZMod 101))),
        (CoinbasePuzzle.accumulate HcW hashCmW HfsW pk eiW ecW
          sols).individual_puzzle_solutions.length ≤ sols.length :=
  C9_rejection_not_error HcW hashCmW HfsW vkW eiW ecW combinedTwoW (by decide) (by decide)

/-- C10 witness at a concrete two-solution combined object with targets 1
and 3. -/
theorem C10_witness :
    CombinedPuzzleSolution.to_cumulative_difficulty tgtW csDiffW
      = some (([1, 3] : List Nat).foldl
          (fun acc t => saturating_add acc (saturating_div U64MAX t)) 0)
    ∧ ([1, 3] : List Nat).foldl
        (fun acc t => saturating_add acc (saturating_div U64MAX t)) 0 ≤ U64MAX :=
  C10_cumulative_difficulty tgtW csDiffW [1, 3] (by decide) (by decide)

end Lemmas

end Snarkvm
